import Mathlib

/-!
Verification development for the schedule projection engine of the
OpenClaw Mission Control dashboard (`src/App.tsx`).

The engine enumerates future cron fire instants inside a half-open-ish
window, applies noisy-schedule capping, and groups instances for the
agenda and week views.  Times are epoch milliseconds, modelled as `Int`.

External capabilities are modelled as injected functions, following the
structure of the source:
* the croner library (`new Cron(expr, …)` plus `cron.nextRun(cursor)`) is a
  `CronFactory`: construction may throw (`Except.error`), and each
  `nextRun` call answers with a next instant, `null`, or a thrown
  exception (`EvalStep`);
* `Intl.DateTimeFormat`-based `dateKey(epochMs, timeZone?)` is an injected
  `DateKey` function `Int → Option String → String`;
* `localeCompare` on job display names is an injected comparator
  `String → String → Int` (negative/zero/positive like the JS call);
* `startOfWeekMs` (local-time week alignment) is an injected `Int → Int`.
-/

namespace MissionControl

/-- Outcome of one `cron.nextRun(cursor)` call: a next fire instant,
`null` (no further occurrence), or a thrown exception. -/
inductive EvalStep where
  | next (t : Int)
  | done
  | err
deriving DecidableEq

/-- The per-call evaluator capability: cursor instant ↦ outcome. -/
def Evaluator : Type := Int → EvalStep

/-- The cron-construction capability: `new Cron(expr, {timezone})` either
yields an evaluator or throws (modelled as `Except.error ()`). -/
def CronFactory : Type := String → Option String → Except Unit Evaluator

/-- The `dateKey(epochMs, timeZone?)` capability: calendar-date string of an
instant in the given time zone (local time when `none`). -/
def DateKey : Type := Int → Option String → String

/-- Schedule descriptor, mirroring the optional fields of the TS type. -/
structure Schedule where
  kind : Option String := none
  expr : Option String := none
  cron : Option String := none
  tz : Option String := none
  timezone : Option String := none
deriving DecidableEq

/-- Last-run state fields used by the projection layer. -/
structure JobState where
  lastRunStatus : Option String := none
  lastStatus : Option String := none
deriving DecidableEq

/-- A cron job record, mirroring the TS `CronJob` fields the engine reads. -/
structure CronJob where
  id : Option String := none
  name : Option String := none
  agentId : Option String := none
  enabled : Option Bool := none
  schedule : Option Schedule := none
  state : Option JobState := none
deriving DecidableEq

/-- JS `a || b` for an optional string `a`: `undefined` and the empty
string are falsy. -/
def strOr (a : Option String) (b : String) : String :=
  match a with
  | some s => if s = "" then b else s
  | none => b

/-- `getCronExpr`: empty unless the schedule is tagged `cron`; then
`schedule.expr || schedule.cron || ''`. -/
def getCronExpr (schedule : Option Schedule) : String :=
  match schedule with
  | none => ""
  | some s => if s.kind = some "cron" then strOr s.expr (strOr s.cron "") else ""

/-- `getCronTz`: empty unless the schedule is tagged `cron`; then
`schedule.tz || schedule.timezone || ''`. -/
def getCronTz (schedule : Option Schedule) : String :=
  match schedule with
  | none => ""
  | some s => if s.kind = some "cron" then strOr s.tz (strOr s.timezone "") else ""

def AGENDA_LOOKAHEAD_DAYS : Int := 7

def MAX_RUNS_PER_JOB : Nat := 20

def MAX_RUNS_PER_NOISY_JOB : Nat := 7

def MAX_ITERATIONS_PER_JOB : Nat := 500

def MAX_AGENDA_ITEMS_TOTAL : Nat := 250

/-- The noisy-schedule threshold: two hours in milliseconds. -/
def NOISY_INTERVAL_MS : Int := 2 * 60 * 60 * 1000

def MS_PER_DAY : Int := 24 * 60 * 60 * 1000

/-- `timezone || undefined`: the option actually passed to the croner
constructor and to `dateKey` for a job. -/
def tzOptOf (job : CronJob) : Option String :=
  let timezone := getCronTz job.schedule
  if timezone = "" then none else some timezone

/-- The collection loop of `upcomingRunsForJob`: up to `fuel` evaluator
calls; stop on `null` or an instant strictly beyond `endAtMs`; push the
instant, advance the cursor by one second, and stop (after pushing) once
more than six times the soft cap has been collected.  A thrown exception
(`EvalStep.err`) aborts the whole collection (`Except.error`), matching the
`try` block that wraps the entire loop in the source. -/
def collectRuns (ev : Evaluator) (endAtMs : Int) :
    Nat → Int → List Int → Except Unit (List Int)
  | 0, _, acc => .ok acc
  | fuel + 1, cursor, acc =>
    match ev cursor with
    | .err => .error ()
    | .done => .ok acc
    | .next t =>
      if endAtMs < t then .ok acc
      else if MAX_RUNS_PER_JOB * 6 < acc.length + 1 then .ok (acc ++ [t])
      else collectRuns ev endAtMs fuel (t + 1000) (acc ++ [t])

/-- Consecutive differences of a run list, as in
`runs.slice(1).map((ms, idx) => ms - runs[idx])`. -/
def gaps : List Int → List Int
  | a :: b :: rest => (b - a) :: gaps (b :: rest)
  | _ => []

/-- `Math.min(...gaps) < bound`, with the min taken as `Infinity` (so the
comparison is false) when there are fewer than two runs. -/
def minGapLt (runs : List Int) (bound : Int) : Bool :=
  match gaps runs with
  | [] => false
  | g :: gs => decide (List.foldl min g gs < bound)

/-- The noisy-schedule reduction loop: keep the first run of each calendar
day (day computed by `dk`), stopping once the per-noisy-job limit is
reached. -/
def noisyCapAux (dk : Int → String) : List Int → List String → List Int → List Int
  | [], _, capped => capped
  | r :: rest, seen, capped =>
    if dk r ∈ seen then noisyCapAux dk rest seen capped
    else if MAX_RUNS_PER_NOISY_JOB ≤ (capped ++ [r]).length then capped ++ [r]
    else noisyCapAux dk rest (dk r :: seen) (capped ++ [r])

/-- `upcomingRunsForJob(job, startAtMs, endAtMs)`: collect fire instants
via the evaluator, then apply the soft cap / noisy reduction policy.
Construction failure and a thrown evaluator call both fall into the
`catch` and yield `([], false)`. -/
def upcomingRunsForJob (factory : CronFactory) (dateKey : DateKey)
    (job : CronJob) (startAtMs endAtMs : Int) : List Int × Bool :=
  let expr := getCronExpr job.schedule
  if expr = "" then ([], false)
  else
    match factory expr (tzOptOf job) with
    | .error _ => ([], false)
    | .ok ev =>
      match collectRuns ev endAtMs MAX_ITERATIONS_PER_JOB startAtMs [] with
      | .error _ => ([], false)
      | .ok runs =>
        if runs.length ≤ MAX_RUNS_PER_JOB then (runs, false)
        else if minGapLt runs NOISY_INTERVAL_MS then
          (noisyCapAux (fun t => dateKey t (tzOptOf job)) runs [] [], true)
        else (runs.take MAX_RUNS_PER_JOB, true)

/-- One projected run instance, tagged with its originating job, as pushed
by `buildAgendaItems`. -/
structure AgendaItem where
  runAtMs : Int
  job : CronJob
  agentId : String
  enabled : Bool
  status : String
  scheduleExpr : String
  scheduleTz : String
  wasCapped : Bool
deriving DecidableEq

/-- `job.state?.lastRunStatus || job.state?.lastStatus || '—'`. -/
def statusOf (job : CronJob) : String :=
  match job.state with
  | none => "—"
  | some st => strOr st.lastRunStatus (strOr st.lastStatus "—")

/-- The per-job body of `buildAgendaItems`: skip jobs without a cron
expression, otherwise tag each projected instant with the job data. -/
def jobItems (factory : CronFactory) (dateKey : DateKey)
    (startAtMs endAtMs : Int) (job : CronJob) : List AgendaItem :=
  let expr := getCronExpr job.schedule
  if expr = "" then []
  else
    let res := upcomingRunsForJob factory dateKey job startAtMs endAtMs
    res.1.map fun runAtMs =>
      { runAtMs := runAtMs
        job := job
        agentId := strOr job.agentId "(default)"
        enabled := job.enabled.getD false
        status := statusOf job
        scheduleExpr := expr
        scheduleTz := getCronTz job.schedule
        wasCapped := res.2 }

/-- `String(a.job.name || '')`, the display name used by the sort
comparator. -/
def itemName (a : AgendaItem) : String := a.job.name.getD ""

/-- The agenda sort comparator as a ≤-relation: instants ascending, ties
resolved by `lc` (the injected `localeCompare`) on display names.
`agendaLE lc a b` holds exactly when the source comparator answers ≤ 0. -/
def agendaLE (lc : String → String → Int) (a b : AgendaItem) : Bool :=
  if a.runAtMs = b.runAtMs then decide (lc (itemName a) (itemName b) ≤ 0)
  else decide (a.runAtMs < b.runAtMs)

/-- `buildAgendaItems(jobs, startAtMs, endAtMs)`: concatenate every job's
tagged instances, then sort (stably) by the agenda comparator. -/
def buildAgendaItems (lc : String → String → Int) (factory : CronFactory)
    (dateKey : DateKey) (jobs : List CronJob) (startAtMs endAtMs : Int) :
    List AgendaItem :=
  List.insertionSort (fun a b => agendaLE lc a b = true)
    (jobs.flatMap (jobItems factory dateKey startAtMs endAtMs))

/-- The agenda view data computed in the `agenda` memo: total before
trimming, shown count, global-cap flag, retained items. -/
structure AgendaResult where
  total : Nat
  shown : Nat
  wasGlobalCapped : Bool
  items : List AgendaItem
deriving DecidableEq

/-- The `agenda` memo: window `[now, now + 7 days)`, build-and-sort all
items, then apply the global cap of 250. -/
def buildAgenda (lc : String → String → Int) (factory : CronFactory)
    (dateKey : DateKey) (jobs : List CronJob) (nowMs : Int) : AgendaResult :=
  let startAtMs := nowMs
  let endAtMs := startAtMs + AGENDA_LOOKAHEAD_DAYS * 24 * 60 * 60 * 1000
  let allItems := buildAgendaItems lc factory dateKey jobs startAtMs endAtMs
  let total := allItems.length
  let shown := min total MAX_AGENDA_ITEMS_TOTAL
  { total := total
    shown := shown
    wasGlobalCapped := decide (shown < total)
    items := allItems.take shown }

/-- One day slot of the week grid. -/
structure WeekDaySlot where
  key : String
  items : List AgendaItem
deriving DecidableEq

/-- The week view data computed in the `week` memo. -/
structure WeekResult where
  total : Nat
  shown : Nat
  wasGlobalCapped : Bool
  days : List WeekDaySlot
deriving DecidableEq

/-- The within-slot sort comparator `(a, b) => a.runAtMs - b.runAtMs` as a
≤-relation. -/
def runLE (a b : AgendaItem) : Bool := decide (a.runAtMs ≤ b.runAtMs)

/-- The `week` memo: window `[weekStart, weekStart + 7 days)`, items
filtered to instants not before `nowMs`, globally capped, then bucketed
into exactly 7 slots keyed by the local calendar date of each day start.
The source's `Map`-based bucketing is modelled by filtering the retained
items per slot key, which yields the same per-key lists in the same
order; the final per-slot sort matches the source's stable sort. -/
def buildWeek (lc : String → String → Int) (factory : CronFactory)
    (dateKey : DateKey) (startOfWeek : Int → Int) (jobs : List CronJob)
    (nowMs : Int) : WeekResult :=
  let weekStartMs := startOfWeek nowMs
  let weekEndMs := weekStartMs + 7 * 24 * 60 * 60 * 1000
  let allItems :=
    (buildAgendaItems lc factory dateKey jobs weekStartMs weekEndMs).filter
      (fun item => nowMs ≤ item.runAtMs)
  let total := allItems.length
  let shown := min total MAX_AGENDA_ITEMS_TOTAL
  let items := allItems.take shown
  let days := (List.range 7).map fun (idx : Nat) =>
    let dayStartMs := weekStartMs + (idx : Int) * MS_PER_DAY
    let key := dateKey dayStartMs none
    let list := items.filter (fun item => dateKey item.runAtMs none = key)
    ({ key := key
       items := List.insertionSort (fun a b => runLE a b = true) list } : WeekDaySlot)
  { total := total
    shown := shown
    wasGlobalCapped := decide (shown < total)
    days := days }

instance : DecidableEq (Except Unit (List Int)) := fun a b =>
  match a, b with
  | .ok x, .ok y =>
    if h : x = y then isTrue (by rw [h]) else isFalse (fun hc => h (by injection hc))
  | .error x, .error y => isTrue (by cases x; cases y; rfl)
  | .ok _, .error _ => isFalse (fun hc => Except.noConfusion hc)
  | .error _, .ok _ => isFalse (fun hc => Except.noConfusion hc)

/-- Invariant of the collection loop, assuming the per-call evaluator
contract (`nextFireAfter` returns an instant strictly greater than the
cursor): a successful collection that started at cursor `s` with an empty
accumulator is strictly ascending and lies in `(s, e]`. -/
theorem collectRuns_ok_bounds (ev : Evaluator) (e s : Int)
    (hcontract : ∀ c t, ev c = .next t → c < t) :
    ∀ (fuel : Nat) (cursor : Int) (acc runs : List Int),
      s ≤ cursor →
      (∀ a ∈ acc, s < a ∧ a ≤ e ∧ a < cursor) →
      acc.Pairwise (· < ·) →
      collectRuns ev e fuel cursor acc = .ok runs →
      runs.Pairwise (· < ·) ∧ ∀ r ∈ runs, s < r ∧ r ≤ e := by
  intro fuel
  induction fuel with
  | zero =>
    intro cursor acc runs hs hacc hpw heq
    simp only [collectRuns, Except.ok.injEq] at heq
    subst heq
    exact ⟨hpw, fun r hr => ⟨(hacc r hr).1, (hacc r hr).2.1⟩⟩
  | succ fuel ih =>
    intro cursor acc runs hs hacc hpw heq
    simp only [collectRuns] at heq
    split at heq
    · exact absurd heq (by simp)
    · simp only [Except.ok.injEq] at heq
      subst heq
      exact ⟨hpw, fun r hr => ⟨(hacc r hr).1, (hacc r hr).2.1⟩⟩
    · rename_i t hev
      have hct : cursor < t := hcontract cursor t hev
      by_cases h1 : e < t
      · rw [if_pos h1] at heq
        simp only [Except.ok.injEq] at heq
        subst heq
        exact ⟨hpw, fun r hr => ⟨(hacc r hr).1, (hacc r hr).2.1⟩⟩
      · rw [if_neg h1] at heq
        have hmemt : ∀ a ∈ acc ++ [t], s < a ∧ a ≤ e ∧ a < t + 1000 := by
          intro a ha
          rcases List.mem_append.mp ha with ha' | ha'
          · obtain ⟨hx, hy, hz⟩ := hacc a ha'
            exact ⟨hx, hy, by omega⟩
          · have : a = t := by simpa using ha'
            subst this
            exact ⟨by omega, by omega, by omega⟩
        have hpwt : (acc ++ [t]).Pairwise (· < ·) := by
          refine List.pairwise_append.mpr ⟨hpw, by simp, ?_⟩
          intro a ha b hb
          have hbt : b = t := by simpa using hb
          subst hbt
          have := (hacc a ha).2.2
          omega
        by_cases h2 : MAX_RUNS_PER_JOB * 6 < acc.length + 1
        · rw [if_pos h2] at heq
          simp only [Except.ok.injEq] at heq
          subst heq
          exact ⟨hpwt, fun r hr => ⟨(hmemt r hr).1, (hmemt r hr).2.1⟩⟩
        · rw [if_neg h2] at heq
          exact ih (t + 1000) (acc ++ [t]) runs (by omega) hmemt hpwt heq

/-- The noisy reduction never returns more than the per-noisy-job limit
when entered below the limit. -/
theorem noisyCapAux_length (dk : Int → String) :
    ∀ (l : List Int) (seen : List String) (capped : List Int),
      capped.length < MAX_RUNS_PER_NOISY_JOB →
      (noisyCapAux dk l seen capped).length ≤ MAX_RUNS_PER_NOISY_JOB := by
  intro l
  induction l with
  | nil =>
    intro seen capped h
    simpa [noisyCapAux] using Nat.le_of_lt h
  | cons r rest ih =>
    intro seen capped h
    simp only [noisyCapAux]
    by_cases hmem : dk r ∈ seen
    · rw [if_pos hmem]
      exact ih seen capped h
    · rw [if_neg hmem]
      by_cases hlen : MAX_RUNS_PER_NOISY_JOB ≤ (capped ++ [r]).length
      · rw [if_pos hlen]
        simp only [List.length_append, List.length_singleton]
        omega
      · rw [if_neg hlen]
        exact ih _ _ (by simp only [List.length_append, List.length_singleton] at hlen ⊢; omega)

/-- Full specification of the noisy reduction on a strictly ascending run
list: it appends to `capped` a sublist of the input whose day keys avoid
`seen` and are pairwise distinct, and every kept run is at most every
same-day run of the input. -/
theorem noisyCapAux_spec (dk : Int → String) :
    ∀ (l : List Int) (seen : List String) (capped : List Int),
      l.Pairwise (· < ·) →
      ∃ ext : List Int,
        noisyCapAux dk l seen capped = capped ++ ext ∧
        ext.Sublist l ∧
        (∀ r ∈ ext, dk r ∉ seen) ∧
        (ext.map dk).Nodup ∧
        (∀ r ∈ ext, ∀ u ∈ l, dk u = dk r → r ≤ u) := by
  intro l
  induction l with
  | nil =>
    intro seen capped _
    exact ⟨[], by simp [noisyCapAux], by simp, by simp, by simp, by simp⟩
  | cons r rest ih =>
    intro seen capped hpw
    have hpw' : rest.Pairwise (· < ·) := hpw.of_cons
    have hlt : ∀ u ∈ rest, r < u := fun u hu => List.rel_of_pairwise_cons hpw hu
    by_cases hmem : dk r ∈ seen
    · obtain ⟨ext, heq, hsub, hseen, hnd, hfirst⟩ := ih seen capped hpw'
      refine ⟨ext, ?_, hsub.cons _, hseen, hnd, ?_⟩
      · simp only [noisyCapAux]
        rw [if_pos hmem]
        exact heq
      · intro x hx u hu hk
        rcases List.mem_cons.mp hu with rfl | hu'
        · exact absurd (hk ▸ hmem) (hseen x hx)
        · exact hfirst x hx u hu' hk
    · by_cases hlen : MAX_RUNS_PER_NOISY_JOB ≤ (capped ++ [r]).length
      · refine ⟨[r], ?_, ?_, ?_, by simp, ?_⟩
        · simp only [noisyCapAux]
          rw [if_neg hmem, if_pos hlen]
        · exact (List.nil_sublist rest).cons₂ r
        · intro x hx
          have : x = r := by simpa using hx
          subst this
          exact hmem
        · intro x hx u hu hk
          have : x = r := by simpa using hx
          subst this
          rcases List.mem_cons.mp hu with rfl | hu'
          · exact le_refl _
          · exact le_of_lt (hlt u hu')
      · obtain ⟨ext, heq, hsub, hseen, hnd, hfirst⟩ := ih (dk r :: seen) (capped ++ [r]) hpw'
        refine ⟨r :: ext, ?_, hsub.cons₂ r, ?_, ?_, ?_⟩
        · simp only [noisyCapAux]
          rw [if_neg hmem, if_neg hlen, heq]
          simp
        · intro x hx
          rcases List.mem_cons.mp hx with rfl | hx'
          · exact hmem
          · intro hc
            exact hseen x hx' (List.mem_cons_of_mem _ hc)
        · simp only [List.map_cons, List.nodup_cons]
          refine ⟨?_, hnd⟩
          intro hc
          obtain ⟨x, hx, hkx⟩ := List.mem_map.mp hc
          exact hseen x hx (hkx ▸ List.mem_cons_self _ _)
        · intro x hx u hu hk
          rcases List.mem_cons.mp hx with rfl | hx'
          · rcases List.mem_cons.mp hu with rfl | hu'
            · exact le_refl _
            · exact le_of_lt (hlt u hu')
          · rcases List.mem_cons.mp hu with rfl | hu'
            · exact absurd (hk ▸ List.mem_cons_self (dk x) seen)
                (fun hc => hseen x hx' hc)
            · exact hfirst x hx' u hu' hk

/-- A job with no resolvable cron expression short-circuits to
`([], false)` before any evaluator interaction. -/
theorem upcomingRunsForJob_noExpr (factory : CronFactory) (dateKey : DateKey)
    (job : CronJob) (s e : Int) (h : getCronExpr job.schedule = "") :
    upcomingRunsForJob factory dateKey job s e = ([], false) := by
  simp only [upcomingRunsForJob, h, if_pos]

/-- Reduction of `upcomingRunsForJob` once construction and collection have
succeeded: only the capping policy remains. -/
theorem upcomingRunsForJob_eq (factory : CronFactory) (dateKey : DateKey)
    (job : CronJob) (s e : Int) (ev : Evaluator) (runs : List Int)
    (hexpr : getCronExpr job.schedule ≠ "")
    (hfac : factory (getCronExpr job.schedule) (tzOptOf job) = .ok ev)
    (hcol : collectRuns ev e MAX_ITERATIONS_PER_JOB s [] = .ok runs) :
    upcomingRunsForJob factory dateKey job s e =
      if runs.length ≤ MAX_RUNS_PER_JOB then (runs, false)
      else if minGapLt runs NOISY_INTERVAL_MS then
        (noisyCapAux (fun t => dateKey t (tzOptOf job)) runs [] [], true)
      else (runs.take MAX_RUNS_PER_JOB, true) := by
  simp only [upcomingRunsForJob, hexpr, hfac, hcol, if_neg]
  simp

/-- Failure of the evaluation for a job over a window: either the cron
construction throws, or a `nextRun` call throws somewhere inside the
collection loop. -/
def evalFails (factory : CronFactory) (job : CronJob) (s e : Int) : Prop :=
  match factory (getCronExpr job.schedule) (tzOptOf job) with
  | .error _ => True
  | .ok ev => collectRuns ev e MAX_ITERATIONS_PER_JOB s [] = .error ()

/-- Any evaluation failure lands in the `catch` and produces `([], false)`,
whatever had been collected before the failure. -/
theorem upcomingRunsForJob_fail (factory : CronFactory) (dateKey : DateKey)
    (job : CronJob) (s e : Int) (hfail : evalFails factory job s e) :
    upcomingRunsForJob factory dateKey job s e = ([], false) := by
  by_cases hexpr : getCronExpr job.schedule = ""
  · exact upcomingRunsForJob_noExpr factory dateKey job s e hexpr
  · unfold evalFails at hfail
    simp only [upcomingRunsForJob, hexpr, if_neg]
    cases hfac : factory (getCronExpr job.schedule) (tzOptOf job) with
    | error u => simp
    | ok ev =>
      rw [hfac] at hfail
      simp only [hfail]
      simp

/-- Totality of the agenda comparator, given totality of the injected name
comparator. -/
theorem agendaLE_total (lc : String → String → Int)
    (hlc : ∀ x y, lc x y ≤ 0 ∨ lc y x ≤ 0) (a b : AgendaItem) :
    agendaLE lc a b = true ∨ agendaLE lc b a = true := by
  unfold agendaLE
  by_cases h : a.runAtMs = b.runAtMs
  · rw [if_pos h, if_pos h.symm]
    simp only [decide_eq_true_eq]
    exact hlc _ _
  · have h' : ¬ b.runAtMs = a.runAtMs := fun hc => h hc.symm
    rw [if_neg h, if_neg h']
    simp only [decide_eq_true_eq]
    omega

/-- Transitivity of the agenda comparator, given transitivity of the
injected name comparator. -/
theorem agendaLE_trans (lc : String → String → Int)
    (hlc : ∀ x y z, lc x y ≤ 0 → lc y z ≤ 0 → lc x z ≤ 0) (a b c : AgendaItem)
    (hab : agendaLE lc a b = true) (hbc : agendaLE lc b c = true) :
    agendaLE lc a c = true := by
  unfold agendaLE at hab hbc ⊢
  by_cases h1 : a.runAtMs = b.runAtMs <;> by_cases h2 : b.runAtMs = c.runAtMs
  · rw [if_pos h1] at hab
    rw [if_pos h2] at hbc
    rw [if_pos (h1.trans h2)]
    simp only [decide_eq_true_eq] at hab hbc ⊢
    exact hlc _ _ _ hab hbc
  · rw [if_pos h1] at hab
    rw [if_neg h2] at hbc
    have h3 : ¬ a.runAtMs = c.runAtMs := fun hc => h2 (h1.symm.trans hc)
    rw [if_neg h3]
    simp only [decide_eq_true_eq] at hbc ⊢
    omega
  · rw [if_neg h1] at hab
    rw [if_pos h2] at hbc
    have h3 : ¬ a.runAtMs = c.runAtMs := fun hc => h1 (hc.trans h2.symm)
    rw [if_neg h3]
    simp only [decide_eq_true_eq] at hab ⊢
    omega
  · rw [if_neg h1] at hab
    rw [if_neg h2] at hbc
    simp only [decide_eq_true_eq] at hab hbc
    have h3 : ¬ a.runAtMs = c.runAtMs := by omega
    rw [if_neg h3]
    simp only [decide_eq_true_eq]
    omega

/-- A case-insensitive lexicographic comparator on display names: the
concrete collation used to instantiate the injected `localeCompare`. -/
def ciCompare (x y : String) : Int :=
  if x.toLower < y.toLower then -1 else if y.toLower < x.toLower then 1 else 0

theorem ciCompare_le_iff (x y : String) :
    ciCompare x y ≤ 0 ↔ x.toLower ≤ y.toLower := by
  unfold ciCompare
  split_ifs with h1 h2
  · exact iff_of_true (by norm_num) (le_of_lt h1)
  · exact iff_of_false (by norm_num) (not_le.mpr h2)
  · exact iff_of_true (by norm_num) (le_of_not_lt h2)

theorem ciCompare_total (x y : String) : ciCompare x y ≤ 0 ∨ ciCompare y x ≤ 0 := by
  rcases le_total x.toLower y.toLower with h | h
  · exact Or.inl ((ciCompare_le_iff x y).mpr h)
  · exact Or.inr ((ciCompare_le_iff y x).mpr h)

theorem ciCompare_trans (x y z : String) (h1 : ciCompare x y ≤ 0)
    (h2 : ciCompare y z ≤ 0) : ciCompare x z ≤ 0 :=
  (ciCompare_le_iff x z).mpr
    (le_trans ((ciCompare_le_iff x y).mp h1) ((ciCompare_le_iff y z).mp h2))

/-- A deterministic evaluator that fires every `n` milliseconds on the
multiples of `n` (as croner does for aligned schedules): the answer to a
cursor `c` is the smallest multiple of `n` strictly greater than `c`. -/
def stepEvery (n : Int) : Evaluator := fun c => .next (c + (n - c % n))

/-- A factory whose construction always succeeds with a fixed-step
evaluator. -/
def stepFactory (n : Int) : CronFactory := fun _ _ => .ok (stepEvery n)

/-- An evaluator that produces one instant and then throws on every later
call. -/
def errAfterOne : Evaluator := fun c => if c < 3600000 then .next 3600000 else .err

def errFactory : CronFactory := fun _ _ => .ok errAfterOne

/-- A trivial date-key capability (every instant on the same day). -/
def dkTriv : DateKey := fun _ _ => ""

/-- A date-key capability counting whole days from the epoch, the UTC
calendar-date abstraction used for concrete evaluations. -/
def dkDay : DateKey := fun t _ => toString (t / MS_PER_DAY)

def jobHourly : CronJob :=
  { schedule := some { kind := some "cron", expr := some "0 * * * *" } }

def jobEvery5m : CronJob :=
  { schedule := some { kind := some "cron", expr := some "*/5 * * * *" } }

def jobEvery3h : CronJob :=
  { schedule := some { kind := some "cron", expr := some "0 */3 * * *" } }

def jobDaily : CronJob :=
  { schedule := some { kind := some "cron", expr := some "0 0 * * *" } }

def jobOther : CronJob := { schedule := some { kind := some "interval" } }

def sowZero : Int → Int := fun _ => 0

/-- The runs collected for a 5-minute schedule over `[0, 6600000]`. -/
def runs22 : List Int := (List.range 22).map (fun i => 300000 * ((i : Int) + 1))

/-- The runs collected for a 3-hour schedule over `[0, 226800000]`. -/
def runs21 : List Int := (List.range 21).map (fun i => 10800000 * ((i : Int) + 1))

/-- Fixed-step evaluators satisfy the strictly-after evaluator contract. -/
theorem stepEvery_contract (n : Int) (hn : 0 < n) :
    ∀ c t, stepEvery n c = .next t → c < t := by
  intro c t h
  simp only [stepEvery, EvalStep.next.injEq] at h
  have := Int.emod_lt_of_pos c hn
  omega

/-- C1 counterexample: the projection of an hourly job over the window
`[0, 7200000]` contains the instant `7200000`, the window end itself,
because the loop only stops on `nextMs > endAtMs`.  This refutes the
claim that every returned instant is strictly below the window end. -/
theorem c1_counterexample :
    ¬ (∀ x ∈ (upcomingRunsForJob (stepFactory 3600000) dkTriv jobHourly 0 7200000).1,
        x < 7200000) := by
  intro h
  have hmem : (7200000 : Int) ∈
      (upcomingRunsForJob (stepFactory 3600000) dkTriv jobHourly 0 7200000).1 := by
    decide
  exact absurd (h 7200000 hmem) (by omega)

/-- C1 (amended): under the evaluator contract (each answer is strictly
after the queried cursor), every projected instant `x` satisfies
`start < x` and `x ≤ end` — the upper bound is inclusive, not strict. -/
theorem c1_window_bounds (factory : CronFactory) (dateKey : DateKey)
    (job : CronJob) (s e : Int)
    (hcontract : ∀ ev, factory (getCronExpr job.schedule) (tzOptOf job) = .ok ev →
      ∀ c t, ev c = .next t → c < t) :
    ∀ x ∈ (upcomingRunsForJob factory dateKey job s e).1, s < x ∧ x ≤ e := by
  by_cases hexpr : getCronExpr job.schedule = ""
  · rw [upcomingRunsForJob_noExpr factory dateKey job s e hexpr]
    intro x hx
    simp at hx
  · cases hfac : factory (getCronExpr job.schedule) (tzOptOf job) with
    | error u =>
      rw [upcomingRunsForJob_fail factory dateKey job s e
        (by unfold evalFails; rw [hfac]; trivial)]
      intro x hx
      simp at hx
    | ok ev =>
      cases hcol : collectRuns ev e MAX_ITERATIONS_PER_JOB s [] with
      | error u =>
        rw [upcomingRunsForJob_fail factory dateKey job s e
          (by unfold evalFails; rw [hfac]; cases u; exact hcol)]
        intro x hx
        simp at hx
      | ok runs =>
        have hb := collectRuns_ok_bounds ev e s (hcontract ev hfac)
          MAX_ITERATIONS_PER_JOB s [] runs (le_refl s) (by simp) (by simp) hcol
        rw [upcomingRunsForJob_eq factory dateKey job s e ev runs hexpr hfac hcol]
        by_cases hlen : runs.length ≤ MAX_RUNS_PER_JOB
        · rw [if_pos hlen]
          exact fun x hx => hb.2 x hx
        · rw [if_neg hlen]
          by_cases hnoisy : minGapLt runs NOISY_INTERVAL_MS = true
          · rw [if_pos hnoisy]
            obtain ⟨ext, heq, hsub, _, _, _⟩ :=
              noisyCapAux_spec (fun t => dateKey t (tzOptOf job)) runs [] [] hb.1
            rw [List.nil_append] at heq
            intro x hx
            simp only at hx
            rw [heq] at hx
            exact hb.2 x (hsub.subset hx)
          · rw [if_neg hnoisy]
            intro x hx
            simp only at hx
            exact hb.2 x (List.take_subset _ _ hx)

/-- C1 amended-claim witness at the hourly evaluator over a one-day
window. -/
theorem c1_window_bounds_witness : (0 : Int) < 3600000 ∧ (3600000 : Int) ≤ 86400000 :=
  c1_window_bounds (stepFactory 3600000) dkTriv jobHourly 0 86400000
    (fun ev hev => by
      injection hev with h
      exact h ▸ stepEvery_contract 3600000 (by norm_num))
    3600000 (by decide)

/-- C2 counterexample: an evaluator that yields `3600000` and then throws.
The claim predicts the projector keeps the one collected instant
(`[3600000]`); the code's `catch` wraps the whole loop and discards it,
returning `([], false)`. -/
theorem c2_counterexample :
    upcomingRunsForJob errFactory dkTriv jobHourly 0 86400000 = ([], false) ∧
    (upcomingRunsForJob errFactory dkTriv jobHourly 0 86400000).1 ≠ [3600000] := by
  constructor
  · decide
  · decide

/-- C2 (amended): when evaluation fails (construction throws, or a
`nextRun` call throws mid-loop), the projector returns `([], false)`,
discarding instants collected before the failure; the failing job
contributes no agenda items and every other job's items are unchanged. -/
theorem c2_eval_failure_degrades (lc : String → String → Int)
    (factory : CronFactory) (dateKey : DateKey) (job : CronJob) (s e : Int)
    (jobs₁ jobs₂ : List CronJob) (hfail : evalFails factory job s e) :
    upcomingRunsForJob factory dateKey job s e = ([], false) ∧
    jobItems factory dateKey s e job = [] ∧
    buildAgendaItems lc factory dateKey (jobs₁ ++ job :: jobs₂) s e =
      buildAgendaItems lc factory dateKey (jobs₁ ++ jobs₂) s e := by
  have h1 := upcomingRunsForJob_fail factory dateKey job s e hfail
  have h2 : jobItems factory dateKey s e job = [] := by
    unfold jobItems
    by_cases hexpr : getCronExpr job.schedule = ""
    · rw [if_pos hexpr]
    · rw [if_neg hexpr]
      simp [h1]
  refine ⟨h1, h2, ?_⟩
  unfold buildAgendaItems
  rw [List.flatMap_append, List.flatMap_cons, h2, List.flatMap_append]
  simp

/-- C2 amended-claim witness at the throw-after-one evaluator. -/
theorem c2_eval_failure_degrades_witness :
    upcomingRunsForJob errFactory dkTriv jobHourly 0 86400000 = ([], false) ∧
    jobItems errFactory dkTriv 0 86400000 jobHourly = [] ∧
    buildAgendaItems ciCompare errFactory dkTriv ([] ++ jobHourly :: [jobDaily]) 0 86400000 =
      buildAgendaItems ciCompare errFactory dkTriv ([] ++ [jobDaily]) 0 86400000 :=
  c2_eval_failure_degrades ciCompare errFactory dkTriv jobHourly 0 86400000 [] [jobDaily]
    (by
      show collectRuns errAfterOne 86400000 MAX_ITERATIONS_PER_JOB 0 [] = Except.error ()
      decide)

/-- C3: a job whose raw collection exceeds the soft cap and whose minimum
consecutive gap is below the 2-hour noisy threshold is reduced to at most 7
instants, pairwise-distinct calendar days in the job's timezone, each the
chronologically first collected run of its day, in chronological order,
with `wasCapped = true`. -/
theorem c3_noisy_reduction (factory : CronFactory) (dateKey : DateKey)
    (job : CronJob) (s e : Int) (ev : Evaluator) (runs : List Int)
    (hexpr : getCronExpr job.schedule ≠ "")
    (hfac : factory (getCronExpr job.schedule) (tzOptOf job) = .ok ev)
    (hcontract : ∀ c t, ev c = .next t → c < t)
    (hcol : collectRuns ev e MAX_ITERATIONS_PER_JOB s [] = .ok runs)
    (hlen : MAX_RUNS_PER_JOB < runs.length)
    (hnoisy : minGapLt runs NOISY_INTERVAL_MS = true) :
    (upcomingRunsForJob factory dateKey job s e).2 = true ∧
    (upcomingRunsForJob factory dateKey job s e).1.length ≤ MAX_RUNS_PER_NOISY_JOB ∧
    (upcomingRunsForJob factory dateKey job s e).1.Pairwise (· < ·) ∧
    ((upcomingRunsForJob factory dateKey job s e).1.map
      (fun t => dateKey t (tzOptOf job))).Nodup ∧
    ∀ r ∈ (upcomingRunsForJob factory dateKey job s e).1,
      r ∈ runs ∧ ∀ u ∈ runs, dateKey u (tzOptOf job) = dateKey r (tzOptOf job) → r ≤ u := by
  have hpw := (collectRuns_ok_bounds ev e s hcontract MAX_ITERATIONS_PER_JOB s [] runs
    (le_refl s) (by simp) (by simp) hcol).1
  have heqr := upcomingRunsForJob_eq factory dateKey job s e ev runs hexpr hfac hcol
  rw [if_neg (not_le.mpr hlen), if_pos hnoisy] at heqr
  obtain ⟨ext, heq, hsub, _hseen, hnd, hfirst⟩ :=
    noisyCapAux_spec (fun t => dateKey t (tzOptOf job)) runs [] [] hpw
  rw [List.nil_append] at heq
  rw [heqr]
  simp only
  rw [heq]
  refine ⟨trivial, ?_, List.Pairwise.sublist hsub hpw, hnd, ?_⟩
  · have hlen7 := noisyCapAux_length (fun t => dateKey t (tzOptOf job)) runs [] []
      (by decide)
    rw [heq] at hlen7
    exact hlen7
  · intro r hr
    exact ⟨hsub.subset hr, fun u hu hk => hfirst r hr u hu hk⟩

/-- C3 witness: a 5-minute evaluator over `[0, 6600000]` collects 22 runs
(over the soft cap, gaps of 5 minutes), so the projection is noisy-capped. -/
theorem c3_noisy_reduction_witness :
    (upcomingRunsForJob (stepFactory 300000) dkDay jobEvery5m 0 6600000).2 = true ∧
    (upcomingRunsForJob (stepFactory 300000) dkDay jobEvery5m 0 6600000).1.length ≤
      MAX_RUNS_PER_NOISY_JOB :=
  And.intro
    (c3_noisy_reduction (stepFactory 300000) dkDay jobEvery5m 0 6600000
      (stepEvery 300000) runs22 (by decide) rfl
      (stepEvery_contract 300000 (by norm_num)) (by decide) (by decide) (by decide)).1
    (c3_noisy_reduction (stepFactory 300000) dkDay jobEvery5m 0 6600000
      (stepEvery 300000) runs22 (by decide) rfl
      (stepEvery_contract 300000 (by norm_num)) (by decide) (by decide) (by decide)).2.1

/-- C4: a job whose raw collection exceeds the soft cap but whose minimum
consecutive gap is at or above the noisy threshold is truncated to exactly
the first 20 collected instants, in chronological order, with
`wasCapped = true`. -/
theorem c4_non_noisy_truncation (factory : CronFactory) (dateKey : DateKey)
    (job : CronJob) (s e : Int) (ev : Evaluator) (runs : List Int)
    (hexpr : getCronExpr job.schedule ≠ "")
    (hfac : factory (getCronExpr job.schedule) (tzOptOf job) = .ok ev)
    (hcontract : ∀ c t, ev c = .next t → c < t)
    (hcol : collectRuns ev e MAX_ITERATIONS_PER_JOB s [] = .ok runs)
    (hlen : MAX_RUNS_PER_JOB < runs.length)
    (hnoisy : minGapLt runs NOISY_INTERVAL_MS = false) :
    upcomingRunsForJob factory dateKey job s e = (runs.take MAX_RUNS_PER_JOB, true) ∧
    (upcomingRunsForJob factory dateKey job s e).1.length = MAX_RUNS_PER_JOB ∧
    (upcomingRunsForJob factory dateKey job s e).1.Pairwise (· < ·) := by
  have hpw := (collectRuns_ok_bounds ev e s hcontract MAX_ITERATIONS_PER_JOB s [] runs
    (le_refl s) (by simp) (by simp) hcol).1
  have heqr := upcomingRunsForJob_eq factory dateKey job s e ev runs hexpr hfac hcol
  rw [if_neg (not_le.mpr hlen), if_neg (by simp [hnoisy])] at heqr
  refine ⟨heqr, ?_, ?_⟩
  · rw [heqr]
    simp only [List.length_take]
    exact min_eq_left (Nat.le_of_lt hlen)
  · rw [heqr]
    exact List.Pairwise.sublist (List.take_sublist _ _) hpw

/-- C4 witness: a 3-hour evaluator over `[0, 226800000]` collects 21 runs
(over the soft cap, gaps of 3 hours ≥ threshold), so the projection is the
plain 20-element truncation. -/
theorem c4_non_noisy_truncation_witness :
    upcomingRunsForJob (stepFactory 10800000) dkDay jobEvery3h 0 226800000 =
      (runs21.take MAX_RUNS_PER_JOB, true) ∧
    (upcomingRunsForJob (stepFactory 10800000) dkDay jobEvery3h 0 226800000).1.length =
      MAX_RUNS_PER_JOB :=
  And.intro
    (c4_non_noisy_truncation (stepFactory 10800000) dkDay jobEvery3h 0 226800000
      (stepEvery 10800000) runs21 (by decide) rfl
      (stepEvery_contract 10800000 (by norm_num)) (by decide) (by decide) (by decide)).1
    (c4_non_noisy_truncation (stepFactory 10800000) dkDay jobEvery3h 0 226800000
      (stepEvery 10800000) runs21 (by decide) rfl
      (stepEvery_contract 10800000 (by norm_num)) (by decide) (by decide) (by decide)).2.1

/-- C8: under the evaluator contract, the projected instant sequence is
strictly ascending on every path (uncapped, noisy-reduced, truncated). -/
theorem c8_strictly_ascending (factory : CronFactory) (dateKey : DateKey)
    (job : CronJob) (s e : Int)
    (hcontract : ∀ ev, factory (getCronExpr job.schedule) (tzOptOf job) = .ok ev →
      ∀ c t, ev c = .next t → c < t) :
    (upcomingRunsForJob factory dateKey job s e).1.Pairwise (· < ·) := by
  by_cases hexpr : getCronExpr job.schedule = ""
  · rw [upcomingRunsForJob_noExpr factory dateKey job s e hexpr]
    simp
  · cases hfac : factory (getCronExpr job.schedule) (tzOptOf job) with
    | error u =>
      rw [upcomingRunsForJob_fail factory dateKey job s e
        (by unfold evalFails; rw [hfac]; trivial)]
      simp
    | ok ev =>
      cases hcol : collectRuns ev e MAX_ITERATIONS_PER_JOB s [] with
      | error u =>
        rw [upcomingRunsForJob_fail factory dateKey job s e
          (by unfold evalFails; rw [hfac]; cases u; exact hcol)]
        simp
      | ok runs =>
        have hpw := (collectRuns_ok_bounds ev e s (hcontract ev hfac)
          MAX_ITERATIONS_PER_JOB s [] runs (le_refl s) (by simp) (by simp) hcol).1
        rw [upcomingRunsForJob_eq factory dateKey job s e ev runs hexpr hfac hcol]
        by_cases hlen : runs.length ≤ MAX_RUNS_PER_JOB
        · rw [if_pos hlen]
          exact hpw
        · rw [if_neg hlen]
          by_cases hnoisy : minGapLt runs NOISY_INTERVAL_MS = true
          · rw [if_pos hnoisy]
            obtain ⟨ext, heq, hsub, _, _, _⟩ :=
              noisyCapAux_spec (fun t => dateKey t (tzOptOf job)) runs [] [] hpw
            rw [List.nil_append] at heq
            simp only
            rw [heq]
            exact List.Pairwise.sublist hsub hpw
          · rw [if_neg hnoisy]
            exact List.Pairwise.sublist (List.take_sublist _ _) hpw

/-- C8 witness: the hourly projection over a one-day window is strictly
ascending. -/
theorem c8_strictly_ascending_witness :
    (upcomingRunsForJob (stepFactory 3600000) dkDay jobHourly 0 86400000).1.Pairwise
      (· < ·) :=
  c8_strictly_ascending (stepFactory 3600000) dkDay jobHourly 0 86400000
    (fun ev hev => by
      injection hev with h
      exact h ▸ stepEvery_contract 3600000 (by norm_num))

/-- C9: a job whose schedule kind is not `"cron"`, or whose resolved cron
expression is empty, projects to `([], false)` and contributes no
instances to the agenda or the week view. -/
theorem c9_non_cron_contributes_nothing (lc : String → String → Int)
    (factory : CronFactory) (dateKey : DateKey) (sow : Int → Int) (job : CronJob)
    (jobs₁ jobs₂ : List CronJob) (s e nowMs : Int)
    (h : (∀ sc, job.schedule = some sc → sc.kind ≠ some "cron") ∨
      getCronExpr job.schedule = "") :
    upcomingRunsForJob factory dateKey job s e = ([], false) ∧
    jobItems factory dateKey s e job = [] ∧
    buildAgenda lc factory dateKey (jobs₁ ++ job :: jobs₂) nowMs =
      buildAgenda lc factory dateKey (jobs₁ ++ jobs₂) nowMs ∧
    buildWeek lc factory dateKey sow (jobs₁ ++ job :: jobs₂) nowMs =
      buildWeek lc factory dateKey sow (jobs₁ ++ jobs₂) nowMs := by
  have hexpr : getCronExpr job.schedule = "" := by
    rcases h with h | h
    · unfold getCronExpr
      cases hs : job.schedule with
      | none => rfl
      | some sc => exact if_neg (h sc hs)
    · exact h
  have h2 : ∀ s' e' : Int, jobItems factory dateKey s' e' job = [] := by
    intro s' e'
    unfold jobItems
    rw [if_pos hexpr]
  have h3 : ∀ s' e' : Int,
      buildAgendaItems lc factory dateKey (jobs₁ ++ job :: jobs₂) s' e' =
      buildAgendaItems lc factory dateKey (jobs₁ ++ jobs₂) s' e' := by
    intro s' e'
    unfold buildAgendaItems
    rw [List.flatMap_append, List.flatMap_cons, h2, List.flatMap_append]
    simp
  refine ⟨upcomingRunsForJob_noExpr factory dateKey job s e hexpr, h2 s e, ?_, ?_⟩
  · simp only [buildAgenda, h3]
  · simp only [buildWeek, h3]

/-- C9 witness at an `"interval"`-kind job placed between two cron jobs. -/
theorem c9_non_cron_contributes_nothing_witness :
    upcomingRunsForJob (stepFactory 3600000) dkDay jobOther 0 86400000 = ([], false) ∧
    jobItems (stepFactory 3600000) dkDay 0 86400000 jobOther = [] ∧
    buildAgenda ciCompare (stepFactory 3600000) dkDay ([jobHourly] ++ jobOther :: [jobDaily]) 0 =
      buildAgenda ciCompare (stepFactory 3600000) dkDay ([jobHourly] ++ [jobDaily]) 0 ∧
    buildWeek ciCompare (stepFactory 3600000) dkDay sowZero ([jobHourly] ++ jobOther :: [jobDaily]) 0 =
      buildWeek ciCompare (stepFactory 3600000) dkDay sowZero ([jobHourly] ++ [jobDaily]) 0 :=
  c9_non_cron_contributes_nothing ciCompare (stepFactory 3600000) dkDay sowZero jobOther
    [jobHourly] [jobDaily] 0 86400000 0
    (Or.inl (fun sc hsc => by cases hsc; decide))

/-- C10: the projector returns at most 20 instants on every path and for
every evaluator behaviour; moreover a raw collection within the soft cap
is returned unchanged with `wasCapped = false`, the noisy branch keeps at
most 7 instants, and the non-noisy overflow branch keeps exactly 20. -/
theorem c10_per_job_cap (factory : CronFactory) (dateKey : DateKey)
    (job : CronJob) (s e : Int) :
    (upcomingRunsForJob factory dateKey job s e).1.length ≤ MAX_RUNS_PER_JOB ∧
    (∀ ev runs,
      getCronExpr job.schedule ≠ "" →
      factory (getCronExpr job.schedule) (tzOptOf job) = .ok ev →
      collectRuns ev e MAX_ITERATIONS_PER_JOB s [] = .ok runs →
      (runs.length ≤ MAX_RUNS_PER_JOB →
        upcomingRunsForJob factory dateKey job s e = (runs, false)) ∧
      (MAX_RUNS_PER_JOB < runs.length → minGapLt runs NOISY_INTERVAL_MS = true →
        (upcomingRunsForJob factory dateKey job s e).1.length ≤ MAX_RUNS_PER_NOISY_JOB) ∧
      (MAX_RUNS_PER_JOB < runs.length → minGapLt runs NOISY_INTERVAL_MS = false →
        (upcomingRunsForJob factory dateKey job s e).1.length = MAX_RUNS_PER_JOB)) := by
  constructor
  · by_cases hexpr : getCronExpr job.schedule = ""
    · rw [upcomingRunsForJob_noExpr factory dateKey job s e hexpr]
      simp
    · cases hfac : factory (getCronExpr job.schedule) (tzOptOf job) with
      | error u =>
        rw [upcomingRunsForJob_fail factory dateKey job s e
          (by unfold evalFails; rw [hfac]; trivial)]
        simp
      | ok ev =>
        cases hcol : collectRuns ev e MAX_ITERATIONS_PER_JOB s [] with
        | error u =>
          rw [upcomingRunsForJob_fail factory dateKey job s e
            (by unfold evalFails; rw [hfac]; cases u; exact hcol)]
          simp
        | ok runs =>
          rw [upcomingRunsForJob_eq factory dateKey job s e ev runs hexpr hfac hcol]
          by_cases hlen : runs.length ≤ MAX_RUNS_PER_JOB
          · rw [if_pos hlen]
            exact hlen
          · rw [if_neg hlen]
            by_cases hnoisy : minGapLt runs NOISY_INTERVAL_MS = true
            · rw [if_pos hnoisy]
              have h7 := noisyCapAux_length (fun t => dateKey t (tzOptOf job)) runs [] []
                (by decide)
              simp only
              exact le_trans h7 (by decide)
            · rw [if_neg hnoisy]
              simp only [List.length_take]
              exact min_le_left _ _
  · intro ev runs hexpr hfac hcol
    have heqr := upcomingRunsForJob_eq factory dateKey job s e ev runs hexpr hfac hcol
    refine ⟨?_, ?_, ?_⟩
    · intro hlen
      rw [heqr, if_pos hlen]
    · intro hlen hnoisy
      rw [heqr, if_neg (not_le.mpr hlen), if_pos hnoisy]
      simp only
      exact noisyCapAux_length (fun t => dateKey t (tzOptOf job)) runs [] [] (by decide)
    · intro hlen hnoisy
      rw [heqr, if_neg (not_le.mpr hlen), if_neg (by simp [hnoisy])]
      simp only [List.length_take]
      exact min_eq_left (Nat.le_of_lt hlen)

/-- C10 witness: the hourly two-run projection is within the cap and is
returned unchanged with `wasCapped = false`. -/
theorem c10_per_job_cap_witness :
    upcomingRunsForJob (stepFactory 3600000) dkTriv jobHourly 0 7200000 =
      ([3600000, 7200000], false) ∧
    (upcomingRunsForJob (stepFactory 3600000) dkTriv jobHourly 0 7200000).1.length ≤
      MAX_RUNS_PER_JOB :=
  And.intro
    (((c10_per_job_cap (stepFactory 3600000) dkTriv jobHourly 0 7200000).2
      (stepEvery 3600000) [3600000, 7200000] (by decide) rfl (by decide)).1 (by decide))
    (c10_per_job_cap (stepFactory 3600000) dkTriv jobHourly 0 7200000).1

/-- C5: the agenda records `total` as the combined pre-trim instance count,
retains exactly `min(total, 250)` items, flags the global cap iff
`total > 250`, and the retained items are the prefix of the list sorted by
instant ascending with name ties resolved by the injected comparator — so
every retained item precedes every dropped item in that order. -/
theorem c5_agenda_global_cap (lc : String → String → Int) (factory : CronFactory)
    (dateKey : DateKey) (jobs : List CronJob) (nowMs : Int)
    (hlcTotal : ∀ x y, lc x y ≤ 0 ∨ lc y x ≤ 0)
    (hlcTrans : ∀ x y z, lc x y ≤ 0 → lc y z ≤ 0 → lc x z ≤ 0) :
    (buildAgenda lc factory dateKey jobs nowMs).total =
      (jobs.flatMap (jobItems factory dateKey nowMs
        (nowMs + AGENDA_LOOKAHEAD_DAYS * 24 * 60 * 60 * 1000))).length ∧
    (buildAgenda lc factory dateKey jobs nowMs).items.length =
      min (buildAgenda lc factory dateKey jobs nowMs).total MAX_AGENDA_ITEMS_TOTAL ∧
    ((buildAgenda lc factory dateKey jobs nowMs).wasGlobalCapped = true ↔
      MAX_AGENDA_ITEMS_TOTAL < (buildAgenda lc factory dateKey jobs nowMs).total) ∧
    (buildAgenda lc factory dateKey jobs nowMs).items =
      (buildAgendaItems lc factory dateKey jobs nowMs
        (nowMs + AGENDA_LOOKAHEAD_DAYS * 24 * 60 * 60 * 1000)).take
        (min (buildAgenda lc factory dateKey jobs nowMs).total MAX_AGENDA_ITEMS_TOTAL) ∧
    (buildAgenda lc factory dateKey jobs nowMs).items.Pairwise
      (fun a b => agendaLE lc a b = true) ∧
    (∀ x ∈ (buildAgenda lc factory dateKey jobs nowMs).items,
      ∀ y ∈ (buildAgendaItems lc factory dateKey jobs nowMs
          (nowMs + AGENDA_LOOKAHEAD_DAYS * 24 * 60 * 60 * 1000)).drop
          (min (buildAgenda lc factory dateKey jobs nowMs).total MAX_AGENDA_ITEMS_TOTAL),
        agendaLE lc x y = true) := by
  haveI : IsTotal AgendaItem (fun a b => agendaLE lc a b = true) :=
    ⟨agendaLE_total lc hlcTotal⟩
  haveI : IsTrans AgendaItem (fun a b => agendaLE lc a b = true) :=
    ⟨agendaLE_trans lc hlcTrans⟩
  have hsorted : (buildAgendaItems lc factory dateKey jobs nowMs
      (nowMs + AGENDA_LOOKAHEAD_DAYS * 24 * 60 * 60 * 1000)).Pairwise
      (fun a b => agendaLE lc a b = true) :=
    List.sorted_insertionSort (fun a b => agendaLE lc a b = true) _
  have hperm : (buildAgendaItems lc factory dateKey jobs nowMs
      (nowMs + AGENDA_LOOKAHEAD_DAYS * 24 * 60 * 60 * 1000)).Perm
      (jobs.flatMap (jobItems factory dateKey nowMs
        (nowMs + AGENDA_LOOKAHEAD_DAYS * 24 * 60 * 60 * 1000))) :=
    List.perm_insertionSort (fun a b => agendaLE lc a b = true) _
  have htotal : (buildAgenda lc factory dateKey jobs nowMs).total =
      (buildAgendaItems lc factory dateKey jobs nowMs
        (nowMs + AGENDA_LOOKAHEAD_DAYS * 24 * 60 * 60 * 1000)).length := rfl
  have hitems : (buildAgenda lc factory dateKey jobs nowMs).items =
      (buildAgendaItems lc factory dateKey jobs nowMs
        (nowMs + AGENDA_LOOKAHEAD_DAYS * 24 * 60 * 60 * 1000)).take
        (min (buildAgendaItems lc factory dateKey jobs nowMs
          (nowMs + AGENDA_LOOKAHEAD_DAYS * 24 * 60 * 60 * 1000)).length
          MAX_AGENDA_ITEMS_TOTAL) := rfl
  have hflag : (buildAgenda lc factory dateKey jobs nowMs).wasGlobalCapped =
      decide (min (buildAgendaItems lc factory dateKey jobs nowMs
        (nowMs + AGENDA_LOOKAHEAD_DAYS * 24 * 60 * 60 * 1000)).length
        MAX_AGENDA_ITEMS_TOTAL <
        (buildAgendaItems lc factory dateKey jobs nowMs
          (nowMs + AGENDA_LOOKAHEAD_DAYS * 24 * 60 * 60 * 1000)).length) := rfl
  refine ⟨htotal.trans hperm.length_eq, ?_, ?_, ?_, ?_, ?_⟩
  · rw [hitems, htotal, List.length_take]
    omega
  · rw [hflag, htotal]
    simp only [decide_eq_true_eq]
    omega
  · rw [hitems, htotal]
  · rw [hitems]
    exact List.Pairwise.sublist (List.take_sublist _ _) hsorted
  · intro x hx y hy
    rw [hitems] at hx
    rw [htotal] at hy
    have hcross : ((buildAgendaItems lc factory dateKey jobs nowMs
        (nowMs + AGENDA_LOOKAHEAD_DAYS * 24 * 60 * 60 * 1000)).take
        (min (buildAgendaItems lc factory dateKey jobs nowMs
          (nowMs + AGENDA_LOOKAHEAD_DAYS * 24 * 60 * 60 * 1000)).length
          MAX_AGENDA_ITEMS_TOTAL) ++
        (buildAgendaItems lc factory dateKey jobs nowMs
          (nowMs + AGENDA_LOOKAHEAD_DAYS * 24 * 60 * 60 * 1000)).drop
        (min (buildAgendaItems lc factory dateKey jobs nowMs
          (nowMs + AGENDA_LOOKAHEAD_DAYS * 24 * 60 * 60 * 1000)).length
          MAX_AGENDA_ITEMS_TOTAL)).Pairwise (fun a b => agendaLE lc a b = true) := by
      rw [List.take_append_drop]
      exact hsorted
    exact (List.pairwise_append.mp hcross).2.2 x hx y hy

/-- C5 witness at the case-insensitive lexicographic name comparator and a
two-job list. -/
theorem c5_agenda_global_cap_witness :
    (buildAgenda ciCompare (stepFactory 3600000) dkDay [jobHourly, jobDaily] 0).items.length =
      min (buildAgenda ciCompare (stepFactory 3600000) dkDay [jobHourly, jobDaily] 0).total
        MAX_AGENDA_ITEMS_TOTAL ∧
    ((buildAgenda ciCompare (stepFactory 3600000) dkDay [jobHourly, jobDaily] 0).wasGlobalCapped =
        true ↔
      MAX_AGENDA_ITEMS_TOTAL <
        (buildAgenda ciCompare (stepFactory 3600000) dkDay [jobHourly, jobDaily] 0).total) :=
  And.intro
    (c5_agenda_global_cap ciCompare (stepFactory 3600000) dkDay [jobHourly, jobDaily] 0
      ciCompare_total ciCompare_trans).2.1
    (c5_agenda_global_cap ciCompare (stepFactory 3600000) dkDay [jobHourly, jobDaily] 0
      ciCompare_total ciCompare_trans).2.2.1

/-- C6: no instance with a fire instant strictly before `nowMs` appears in
any week-view day slot, although the projection window starts at the week
start. -/
theorem c6_week_excludes_past (lc : String → String → Int) (factory : CronFactory)
    (dateKey : DateKey) (sow : Int → Int) (jobs : List CronJob) (nowMs : Int) :
    ∀ slot ∈ (buildWeek lc factory dateKey sow jobs nowMs).days,
      ∀ item ∈ slot.items, nowMs ≤ item.runAtMs := by
  intro slot hslot item hitem
  simp only [buildWeek, List.mem_map, List.mem_range] at hslot
  obtain ⟨idx, _hidx, rfl⟩ := hslot
  have hitem1 := (List.perm_insertionSort (fun a b => runLE a b = true) _).mem_iff.mp hitem
  have hitem2 := (List.mem_filter.mp hitem1).1
  have hitem3 := List.take_subset _ _ hitem2
  have hitem4 := List.mem_filter.mp hitem3
  exact of_decide_eq_true hitem4.2

/-- Expected week-slot instance of the daily job: its first in-window run. -/
def wItem : AgendaItem :=
  { runAtMs := 86400000
    job := jobDaily
    agentId := "(default)"
    enabled := false
    status := "—"
    scheduleExpr := "0 0 * * *"
    scheduleTz := ""
    wasCapped := false }

/-- Expected week slot holding `wItem` on the second day of the week. -/
def wSlot : WeekDaySlot := { key := "1", items := [wItem] }

/-- C6 witness: the daily job's day-1 slot instance is not before now. -/
theorem c6_week_excludes_past_witness : (0 : Int) ≤ wItem.runAtMs :=
  c6_week_excludes_past ciCompare (stepFactory 86400000) dkDay sowZero [jobDaily] 0
    wSlot (by decide) wItem (by decide)

/-- C7: the week view always yields exactly 7 day slots, keyed (in order)
by the calendar dates of the 7 consecutive day starts from the computed
week start, regardless of how many instances exist. -/
theorem c7_week_seven_slots (lc : String → String → Int) (factory : CronFactory)
    (dateKey : DateKey) (sow : Int → Int) (jobs : List CronJob) (nowMs : Int) :
    (buildWeek lc factory dateKey sow jobs nowMs).days.length = 7 ∧
    (buildWeek lc factory dateKey sow jobs nowMs).days.map (fun d => d.key) =
      (List.range 7).map
        (fun (idx : Nat) => dateKey (sow nowMs + (idx : Int) * MS_PER_DAY) none) := by
  constructor
  · simp only [buildWeek]
    rw [List.length_map, List.length_range]
  · simp only [buildWeek, List.map_map]
    rfl

end MissionControl
